import Mathlib

/-!
Verification of the `WebPageLinkTraverse` crawler (`src/webpage.py`,
`src/webpage-traverse.py`).

The traversal engine `crawl_web` (webpage.py lines 218-314) is embedded as a
fuel-indexed loop `crawlFuel` over an explicit crawl state.  External
collaborators (network fetch, link extraction, the spelling / grammar
analyzers and the page archiver) are parameters of the `Crawler` structure:
the engine only observes their return values, so a function parameter is a
faithful boundary.  A raised exception of an analyzer is modelled as an
error value that aborts the loop, mirroring an uncaught Python exception.

Python idioms are modelled exactly:
  * `pat in s`            -> `pyIn pat s` (substring test),
  * `s.lower()`           -> `pyLower s`,
  * `s.startswith(p)`     -> `pyStarts s p`,
  * `if parent_url:`      -> `parent = some p` with `p ≠ ""` (truthiness),
  * Python `dict` / `set` -> insertion-ordered association list / list.
-/

namespace WebPage

/-- Character-list test: `pat` occurs at the start of `s`. -/
def strStarts : List Char → List Char → Bool
  | [], _ => true
  | _ :: _, [] => false
  | a :: as, b :: bs => a = b && strStarts as bs

/-- Character-list test: `pat` occurs somewhere inside `s`. -/
def strHasSub (pat : List Char) : List Char → Bool
  | [] => pat.isEmpty
  | b :: bs => strStarts pat (b :: bs) || strHasSub pat bs

/-- Python `pat in s` substring membership on strings. -/
def pyIn (pat s : String) : Bool := strHasSub pat.data s.data

/-- ASCII lowercasing of one character, as Python `str.lower` acts on the
ASCII range (addresses and anchors are ASCII; this is also exactly what
`Char.toLower` does). -/
def lowerChar (c : Char) : Char :=
  if 'A' ≤ c ∧ c ≤ 'Z' then Char.ofNat (c.toNat + 32) else c

/-- Python `s.lower()`. -/
def pyLower (s : String) : String := ⟨s.data.map lowerChar⟩

/-- Python `s.startswith(pat)`. -/
def pyStarts (s pat : String) : Bool := strStarts pat.data s.data

/-- Python `s.endswith(pat)`. -/
def pyEnds (s pat : String) : Bool := strStarts pat.data.reverse s.data.reverse

/-- The scope test used by `crawl_web` at webpage.py lines 236, 253 and 290:
`anchor in addr.lower()`.  Note the code lowercases only the address, never
the anchor. -/
def inScope (anchor addr : String) : Bool := pyIn anchor (pyLower addr)

/-- Suffix appended to a child entry recorded for a failed fetch
(webpage.py line 311). -/
def brokenTag : String := "-BROKEN"

/-- One pending unit of traversal work: the tuple
`(current_url, parent_url, depth)` of webpage.py line 224.  `parent = none`
models Python `None`, the parent of a seed frame. -/
structure Frame where
  url : String
  parent : Option String
  depth : Nat
deriving DecidableEq, Repr

/-- The link graph: Python's insertion-ordered `dict` from parent address to
the ordered list of recorded children. -/
abbrev Graph := List (String × List String)

/-- `link_graph[p].append(c)`, creating the key if absent
(webpage.py lines 284-286, 305-313). -/
def addEdge : Graph → String → String → Graph
  | [], p, c => [(p, [c])]
  | (k, vs) :: rest, p, c =>
      if k = p then (k, vs ++ [c]) :: rest else (k, vs) :: addEdge rest p c

/-- Dictionary lookup: the recorded children of `p`, if `p` is a key. -/
def graphChildren : Graph → String → Option (List String)
  | [], _ => none
  | (k, vs) :: rest, p => if k = p then some vs else graphChildren rest p

/-- The engine's run parameters and external collaborators.
`fetch` models `download_page` (content, or `none` for a request error);
`extract` models `extract_links` on (content, base url);
`spellCheck` models `spell_check_html_xml`, `grammarCheck` models
`punctuation.check`, `archive` models the `open`/`write` of the write-files
block; each returns an error value where the Python callee can raise. -/
structure Crawler where
  fetch : String → Option String
  extract : String → String → List String
  anchor : String
  maxDepth : Nat
  brokenLinks : Bool
  spelling : Bool
  writeFiles : Bool
  punctuation : Bool
  archive : Option String → String → String → Option String
  spellCheck : String → Except String (List String)
  grammarCheck : String → Except String (List String)

/-- The three analyzer blocks run on a successfully fetched page
(webpage.py lines 234-277), in source order: write-files (archiving),
spelling, grammar.  Returns the first uncaught exception (if any) together
with the list of analyzers that were actually invoked.  The per-word
suggestion printing inside the spelling block is wrapped in try/except in
the source (lines 259-263) and affects only logging, so it does not appear
here; the analyzer calls themselves (lines 247-249, 254, 273) are not
guarded and a raise propagates. -/
def analyzeNode (C : Crawler) (parent : Option String) (u content : String) :
    Option String × List String :=
  let sc := inScope C.anchor u
  let s1 : Option String × List String :=
    if C.writeFiles then
      if sc then (C.archive parent u content, ["archive"]) else (none, [])
    else (none, [])
  match s1 with
  | (some e, ran1) => (some e, ran1)
  | (none, ran1) =>
    let s2 : Option String × List String :=
      if C.spelling then
        if sc then
          match C.spellCheck content with
          | .error e => (some e, ["spell"])
          | .ok _ => (none, ["spell"])
        else (none, [])
      else (none, [])
    match s2 with
    | (some e, ran2) => (some e, ran1 ++ ran2)
    | (none, ran2) =>
      if C.punctuation then
        match C.grammarCheck content with
        | .error e => (some e, ran1 ++ ran2 ++ ["grammar"])
        | .ok _ => (none, ran1 ++ ran2 ++ ["grammar"])
      else (none, ran1 ++ ran2)

/-- The engine's mutable state, plus instrumentation traces that record the
run's history: `fetched` lists every address passed to `download_page` in
call order, `processed` lists every frame that passed the visited/depth
guard, `pushed` lists every child frame appended to the stack, `analyzed`
records per fetched page which analyzers were invoked. -/
structure St where
  stack : List Frame
  visited : List String
  graph : Graph
  fetched : List String
  processed : List Frame
  pushed : List Frame
  analyzed : List (String × List String)
deriving Repr

/-- Result of a run: the final state, and `some e` when an analyzer raised
`e` (the Python exception that propagates out of `crawl_web`); in that case
`final.stack` still holds the frames that were never popped. -/
structure Outcome where
  final : St
  err : Option String
deriving Repr

/-- One iteration of the `while stack:` loop of webpage.py lines 223-313,
acting on the popped frame `f` and the remaining stack `rest`.  Returns the
successor state and `some e` if an analyzer raised. -/
def stepFrame (C : Crawler) (f : Frame) (rest : List Frame) (st : St) :
    St × Option String :=
  if f.url ∉ st.visited ∧ f.depth ≤ C.maxDepth then
    let st0 : St :=
      { st with
        stack := rest
        fetched := st.fetched ++ [f.url]
        processed := st.processed ++ [f] }
    match C.fetch f.url with
    | some content =>
      -- successful download: mark visited, run analyzers, extract, record,
      -- push (webpage.py lines 231-297)
      let v1 := st0.visited ++ [f.url]
      let an := analyzeNode C f.parent f.url content
      let st1 : St :=
        { st0 with
          visited := v1
          analyzed := st0.analyzed ++ [(f.url, an.2)] }
      match an.1 with
      | some e => (st1, some e)
      | none =>
        let links := C.extract content f.url
        let g1 :=
          match f.parent with
          | some p => if p ≠ "" then addEdge st1.graph p f.url else st1.graph
          | none => st1.graph
        let doPush : Bool :=
          match f.parent with
          | some p => if p ≠ "" then inScope C.anchor p else true
          | none => true
        let kids :=
          if doPush then links.map (fun l => Frame.mk l (some f.url) (f.depth + 1))
          else []
        ({ st1 with
            graph := g1
            stack := kids.reverse ++ rest
            pushed := st1.pushed ++ kids }, none)
    | none =>
      -- broken link: mark visited, record the (possibly tagged) edge,
      -- push nothing (webpage.py lines 299-313)
      let v1 := st0.visited ++ [f.url]
      let g1 :=
        match f.parent with
        | some p =>
          if p ≠ "" then
            addEdge st0.graph p
              (if pyStarts (pyLower f.url) "mailto" then f.url
               else if C.brokenLinks then f.url ++ brokenTag else f.url)
          else st0.graph
        | none => st0.graph
      ({ st0 with visited := v1, graph := g1 }, none)
  else
    -- duplicate or depth-exceeding frame: discard silently (line 225)
    ({ st with stack := rest }, none)

/-- The `while stack:` loop of `crawl_web`, indexed by the number of loop
iterations still allowed; `none` means the fuel ran out before the loop
finished.  `crawl_terminates` below shows sufficient fuel always exists. -/
def crawlFuel (C : Crawler) : Nat → St → Option Outcome
  | 0, _ => none
  | n + 1, st =>
    match st.stack with
    | [] => some ⟨st, none⟩
    | f :: rest =>
      match stepFrame C f rest st with
      | (st1, some e) => some ⟨st1, some e⟩
      | (st1, none) => crawlFuel C n st1

/-- Initial state for a run over a given starting stack, graph and visited
set; all traces empty. -/
def initSt (stack : List Frame) (v : List String) (g : Graph) : St :=
  ⟨stack, v, g, [], [], [], []⟩

/-- The `__main__` driver of webpage.py lines 339-356: start with
`link_graph = {root: []}`, then for each seed append it under `root`, seed
the stack with `(seed, None, 0)` and run `crawl_web`, sharing the visited
set and graph across seeds.  An exception from a crawl aborts the whole
program. -/
def mainFuel (C : Crawler) (n : Nat) : List String → St → Option Outcome
  | [], st => some ⟨st, none⟩
  | s :: rest, st =>
    let st1 : St :=
      { st with
        graph := addEdge st.graph "root" s
        stack := [⟨s, none, 0⟩] }
    match crawlFuel C n st1 with
    | none => none
    | some out =>
      match out.err with
      | some e => some ⟨out.final, some e⟩
      | none => mainFuel C n rest out.final

/-- Initial state of the main driver: empty everything except the `root`
key of the graph (webpage.py lines 344-345). -/
def mainInit : St := initSt [] [] [("root", [])]

/-- The recursive tree printer `print_link_tree` (webpage.py lines 317-321),
with a fuel bound on recursion depth (`none` = the Python call would still
be recursing at that depth, as it does when the graph has a cycle).
Returns the printed lines. -/
def printTreeF (g : Graph) : Nat → String → Nat → Option (List String)
  | 0, _, _ => none
  | n + 1, node, level =>
    match graphChildren g node with
    | none => some []
    | some cs =>
      cs.foldr
        (fun c acc =>
          match printTreeF g n c (level + 1), acc with
          | some sub, some restLines =>
              some ((String.join (List.replicate level "  ") ++ "|-- " ++ c) :: (sub ++ restLines))
          | _, _ => none)
        (some [])

/-- Graph membership of a recorded edge: `c` is listed among the children
of `p`. -/
def hasChild (g : Graph) (p c : String) : Prop :=
  ∃ cs, graphChildren g p = some cs ∧ c ∈ cs

/-- The links a page would contribute if fetched: `extract` on the fetched
content, nothing on a failed fetch.  Used only for the termination
measure. -/
def childList (C : Crawler) (u : String) : List String :=
  match C.fetch u with
  | some content => C.extract content u
  | none => []

/-- Weight of one address under a remaining depth budget: an upper bound on
the number of loop iterations its frame can cause. -/
def fBound (C : Crawler) : Nat → String → Nat
  | 0, _ => 1
  | b + 1, u => 1 + ((childList C u).map (fBound C b)).sum

/-- Weight of a frame: its address's weight at its remaining depth
budget. -/
def frameW (C : Crawler) (f : Frame) : Nat :=
  fBound C (C.maxDepth + 1 - f.depth) f.url

/-- Weight of a stack: total weight of its frames; strictly decreases at
every loop iteration. -/
def stackW (C : Crawler) (fs : List Frame) : Nat :=
  (fs.map (frameW C)).sum

/-- A sane crawled address: not the synthetic root key and not carrying the
broken tag as a suffix, so it cannot collide with either kind of synthetic
graph entry. -/
def goodAddr (x : String) : Prop :=
  x ≠ "root" ∧ pyEnds x brokenTag = false

/-- Does the recorded child entry `c` stand for address `u` (either plainly
or tagged broken)? -/
def entryHits (u c : String) : Bool :=
  c = u || c = u ++ brokenTag

/-- Number of child entries in one list standing for address `u`. -/
def occInList (u : String) (cs : List String) : Nat :=
  (cs.filter (entryHits u)).length

/-- Number of times address `u` is recorded as a child of a non-root parent
anywhere in the graph. -/
def occ (g : Graph) (u : String) : Nat :=
  (g.map (fun kc => if kc.1 = "root" then 0 else occInList u kc.2)).sum

/-- Insertion rank of an address in the visited list (`length v` when
absent). -/
def rankIn (v : List String) (x : String) : Nat :=
  match v with
  | [] => 0
  | y :: ys => if y = x then 0 else rankIn ys x + 1

/-- The structural invariant of the engine state that makes the final
graph forest-shaped below sane addresses: the visited list is
duplicate-free and holds only sane addresses; stack frames hold sane
addresses whose truthy parents are already visited; every graph key is the
root marker or a visited address; every child of a non-root key stands
(plainly or broken-tagged) for an address visited strictly after the key;
root children are sane; and every sane address occurs as a child of
non-root keys at most once, and only once visited. -/
def stInv (st : St) : Prop :=
  st.visited.Nodup ∧
  (∀ x ∈ st.visited, goodAddr x) ∧
  (∀ fr ∈ st.stack, goodAddr fr.url ∧ ∀ p, fr.parent = some p → p ∈ st.visited) ∧
  (∀ k cs, (k, cs) ∈ st.graph → k = "root" ∨ k ∈ st.visited) ∧
  (∀ k cs, (k, cs) ∈ st.graph → k ≠ "root" → ∀ c ∈ cs,
    ∃ x, x ∈ st.visited ∧ (c = x ∨ c = x ++ brokenTag) ∧
      rankIn st.visited k < rankIn st.visited x) ∧
  (∀ cs, ("root", cs) ∈ st.graph → ∀ c ∈ cs, goodAddr c) ∧
  (∀ u, goodAddr u → occ st.graph u ≤ 1 ∧ (1 ≤ occ st.graph u → u ∈ st.visited))

/-! ### Concrete instances used by counterexamples and witnesses -/

/-- A four-page site: `s` links to `b`; `b` links to `c` and `x`; `x` links
to `c`; every fetch succeeds (page content is the address itself); no
analyzers enabled; empty anchor, so every node is in scope. -/
def cexCrawler : Crawler where
  fetch u := if u = "s" ∨ u = "b" ∨ u = "x" ∨ u = "c" then some u else none
  extract content _ :=
    if content = "s" then ["b"]
    else if content = "b" then ["c", "x"]
    else if content = "x" then ["c"]
    else []
  anchor := ""
  maxDepth := 9
  brokenLinks := false
  spelling := false
  writeFiles := false
  punctuation := false
  archive _ _ _ := none
  spellCheck _ := .ok []
  grammarCheck _ := .ok []

/-- The full outcome of running `cexCrawler` from the single seed `s`:
frame `(c, b, 2)` is pushed while frame `(c, x, 3)` is also pending, yet
the final graph records only the edge `x -> c` and fetches `c` once. -/
def c1Out : Outcome :=
  ⟨⟨[], ["s", "b", "x", "c"],
    [("s", ["b"]), ("b", ["x"]), ("x", ["c"])],
    ["s", "b", "x", "c"],
    [⟨"s", none, 0⟩, ⟨"b", some "s", 1⟩, ⟨"x", some "b", 2⟩, ⟨"c", some "x", 3⟩],
    [⟨"b", some "s", 1⟩, ⟨"c", some "b", 2⟩, ⟨"x", some "b", 2⟩, ⟨"c", some "x", 3⟩],
    [("s", []), ("b", []), ("x", []), ("c", [])]⟩, none⟩

/-- A crawler whose spelling analyzer raises `boom` on every page while
every fetch succeeds: models `spell_check_html_xml` raising. -/
def c7Crawler : Crawler where
  fetch _ := some "page"
  extract _ _ := []
  anchor := ""
  maxDepth := 9
  brokenLinks := false
  spelling := true
  writeFiles := false
  punctuation := false
  archive _ _ _ := none
  spellCheck _ := .error "boom"
  grammarCheck _ := .ok []

/-- A crawler with the spelling and grammar analyzers enabled (both
succeeding), anchor `a`, over one-page content. -/
def c8Crawler : Crawler where
  fetch _ := some "page"
  extract _ _ := []
  anchor := "a"
  maxDepth := 9
  brokenLinks := false
  spelling := true
  writeFiles := false
  punctuation := true
  archive _ _ _ := none
  spellCheck _ := .ok []
  grammarCheck _ := .ok []

/-- A crawler where every fetch fails and no analyzer is enabled. -/
def failCrawler : Crawler where
  fetch _ := none
  extract _ _ := []
  anchor := ""
  maxDepth := 9
  brokenLinks := false
  spelling := false
  writeFiles := false
  punctuation := false
  archive _ _ _ := none
  spellCheck _ := .ok []
  grammarCheck _ := .ok []

/-! ## Basic lemmas about the embedded operations -/

theorem graphChildren_addEdge_same (g : Graph) (p c : String) :
    ∃ cs, graphChildren (addEdge g p c) p = some cs ∧ c ∈ cs := by
  induction g with
  | nil => exact ⟨[c], by simp [addEdge, graphChildren], by simp⟩
  | cons kv rest ih =>
    obtain ⟨k, vs⟩ := kv
    by_cases hk : k = p
    · subst hk
      exact ⟨vs ++ [c], by simp [addEdge, graphChildren], by simp⟩
    · obtain ⟨cs, hcs, hc⟩ := ih
      exact ⟨cs, by simp [addEdge, graphChildren, hk, hcs], hc⟩

theorem graphChildren_addEdge_other (g : Graph) (p c q : String) (hq : q ≠ p) :
    graphChildren (addEdge g p c) q = graphChildren g q := by
  have hpq : ¬p = q := fun h => hq h.symm
  induction g with
  | nil => simp [addEdge, graphChildren, hpq]
  | cons kv rest ih =>
    obtain ⟨k, vs⟩ := kv
    by_cases hk : k = p
    · subst hk
      simp [addEdge, graphChildren, hpq]
    · by_cases hkq : k = q <;> simp [addEdge, graphChildren, hk, hkq, hq, hpq, ih]

theorem hasChild_addEdge_mono (g : Graph) (p c q d : String)
    (h : hasChild g q d) : hasChild (addEdge g p c) q d := by
  obtain ⟨cs, hcs, hd⟩ := h
  by_cases hq : q = p
  · subst hq
    induction g with
    | nil => simp [graphChildren] at hcs
    | cons kv rest ih =>
      obtain ⟨k, vs⟩ := kv
      by_cases hk : k = q
      · subst hk
        simp [graphChildren] at hcs
        subst hcs
        exact ⟨vs ++ [c], by simp [addEdge, graphChildren], by simp [hd]⟩
      · simp [graphChildren, hk] at hcs
        obtain ⟨cs2, hcs2, hd2⟩ := ih hcs
        exact ⟨cs2, by simp [addEdge, graphChildren, hk, hcs2], hd2⟩
  · exact ⟨cs, by rw [graphChildren_addEdge_other g p c q hq]; exact hcs, hd⟩

/-- Every entry of `addEdge g p c` is an entry of `g`, the entry of `p`
extended by `c`, or the fresh entry `(p, [c])`. -/
theorem addEdge_entry_cases (g : Graph) (p c : String) :
    ∀ k cs, (k, cs) ∈ addEdge g p c →
      (k, cs) ∈ g ∨ (k = p ∧ (cs = [c] ∨ ∃ cs0, (k, cs0) ∈ g ∧ cs = cs0 ++ [c])) := by
  induction g with
  | nil =>
    intro k cs h
    simp [addEdge] at h
    exact Or.inr ⟨h.1, Or.inl h.2⟩
  | cons kv rest ih =>
    obtain ⟨k0, vs⟩ := kv
    intro k cs h
    by_cases hk : k0 = p
    · subst hk
      simp [addEdge] at h
      rcases h with ⟨hkk, hcs⟩ | hmem
      · exact Or.inr ⟨hkk, Or.inr ⟨vs, by simp [hkk], hcs⟩⟩
      · exact Or.inl (by simp [hmem])
    · simp [addEdge, hk] at h
      rcases h with ⟨hkk, hcs⟩ | hmem
      · exact Or.inl (by simp [hkk, hcs])
      · rcases ih k cs hmem with hin | hnew
        · exact Or.inl (by simp [hin])
        · rcases hnew with ⟨hkp, hrest⟩
          refine Or.inr ⟨hkp, ?_⟩
          rcases hrest with hcs | ⟨cs0, hin0, hcs0⟩
          · exact Or.inl hcs
          · exact Or.inr ⟨cs0, by simp [hin0], hcs0⟩

theorem rankIn_lt_length (v : List String) (x : String) :
    x ∈ v → rankIn v x < v.length := by
  induction v with
  | nil => intro h; cases h
  | cons y ys ih =>
    intro h
    by_cases hy : y = x
    · simp [rankIn, hy]
    · have hx : x ∈ ys := by
        rcases List.mem_cons.mp h with h | h
        · exact absurd h.symm hy
        · exact h
      simp only [rankIn, if_neg hy, List.length_cons]
      exact Nat.succ_lt_succ (ih hx)

theorem rankIn_append_of_mem (v w : List String) (x : String) :
    x ∈ v → rankIn (v ++ w) x = rankIn v x := by
  induction v with
  | nil => intro h; cases h
  | cons y ys ih =>
    intro h
    by_cases hy : y = x
    · simp [rankIn, hy]
    · have hx : x ∈ ys := by
        rcases List.mem_cons.mp h with h | h
        · exact absurd h.symm hy
        · exact h
      simp [rankIn, hy, ih hx]

theorem rankIn_append_fresh (v : List String) (x : String) :
    x ∉ v → rankIn (v ++ [x]) x = v.length := by
  induction v with
  | nil => intro h; simp [rankIn]
  | cons y ys ih =>
    intro h
    have hy : y ≠ x := fun hc => h (by simp [hc])
    have hx : x ∉ ys := fun hc => h (by simp [hc])
    simp [rankIn, hy, ih hx]

/-- A string extended by the broken tag ends with the broken tag. -/
theorem pyEnds_append_brokenTag (x : String) :
    pyEnds (x ++ brokenTag) brokenTag = true := by
  have hdata : (x ++ brokenTag).data = x.data ++ brokenTag.data := rfl
  have hrev : (x.data ++ brokenTag.data).reverse
      = brokenTag.data.reverse ++ x.data.reverse := by
    simp
  have hself : ∀ (p q : List Char), strStarts p (p ++ q) = true := by
    intro p
    induction p with
    | nil => intro q; rfl
    | cons a as ih => intro q; simp [strStarts, ih]
  simp only [pyEnds, hdata, hrev]
  exact hself _ _

/-! ## The step-branch characterizations of one loop iteration -/

theorem stepFrame_skip (C : Crawler) (f : Frame) (rest : List Frame) (st : St)
    (h : ¬(f.url ∉ st.visited ∧ f.depth ≤ C.maxDepth)) :
    stepFrame C f rest st = ({ st with stack := rest }, none) := by
  simp only [stepFrame, if_neg h]

theorem stepFrame_fail (C : Crawler) (f : Frame) (rest : List Frame) (st : St)
    (h1 : f.url ∉ st.visited) (h2 : f.depth ≤ C.maxDepth)
    (h3 : C.fetch f.url = none) :
    stepFrame C f rest st =
      ({ st with
          stack := rest
          visited := st.visited ++ [f.url]
          graph :=
            match f.parent with
            | some p =>
              if p ≠ "" then
                addEdge st.graph p
                  (if pyStarts (pyLower f.url) "mailto" then f.url
                   else if C.brokenLinks then f.url ++ brokenTag else f.url)
              else st.graph
            | none => st.graph
          fetched := st.fetched ++ [f.url]
          processed := st.processed ++ [f] }, none) := by
  simp only [stepFrame, if_pos (And.intro h1 h2), h3]

theorem stepFrame_abort (C : Crawler) (f : Frame) (rest : List Frame) (st : St)
    (content e : String)
    (h1 : f.url ∉ st.visited) (h2 : f.depth ≤ C.maxDepth)
    (h3 : C.fetch f.url = some content)
    (h4 : (analyzeNode C f.parent f.url content).1 = some e) :
    stepFrame C f rest st =
      ({ st with
          stack := rest
          visited := st.visited ++ [f.url]
          fetched := st.fetched ++ [f.url]
          processed := st.processed ++ [f]
          analyzed :=
            st.analyzed ++ [(f.url, (analyzeNode C f.parent f.url content).2)] },
        some e) := by
  simp only [stepFrame, if_pos (And.intro h1 h2), h3]
  rw [show analyzeNode C f.parent f.url content
        = (some e, (analyzeNode C f.parent f.url content).2) from
      Prod.ext h4 rfl]

theorem stepFrame_ok (C : Crawler) (f : Frame) (rest : List Frame) (st : St)
    (content : String)
    (h1 : f.url ∉ st.visited) (h2 : f.depth ≤ C.maxDepth)
    (h3 : C.fetch f.url = some content)
    (h4 : (analyzeNode C f.parent f.url content).1 = none) :
    stepFrame C f rest st =
      ({ st with
          stack :=
            (if (match f.parent with
                 | some p => if p ≠ "" then inScope C.anchor p else true
                 | none => true) then
              (C.extract content f.url).map
                (fun l => Frame.mk l (some f.url) (f.depth + 1))
             else []).reverse ++ rest
          visited := st.visited ++ [f.url]
          graph :=
            match f.parent with
            | some p => if p ≠ "" then addEdge st.graph p f.url else st.graph
            | none => st.graph
          fetched := st.fetched ++ [f.url]
          processed := st.processed ++ [f]
          pushed :=
            st.pushed ++
              (if (match f.parent with
                   | some p => if p ≠ "" then inScope C.anchor p else true
                   | none => true) then
                (C.extract content f.url).map
                  (fun l => Frame.mk l (some f.url) (f.depth + 1))
               else [])
          analyzed :=
            st.analyzed ++ [(f.url, (analyzeNode C f.parent f.url content).2)] },
        none) := by
  simp only [stepFrame, if_pos (And.intro h1 h2), h3]
  rw [show analyzeNode C f.parent f.url content
        = (none, (analyzeNode C f.parent f.url content).2) from
      Prod.ext h4 rfl]

/-! ## Run-level preservation scaffold -/

/-- A state predicate preserved by every loop iteration holds for the final
state of any run, aborted or not. -/
theorem crawl_run_preserve (C : Crawler) (P : St → Prop)
    (hstep : ∀ f rest st, st.stack = f :: rest → P st →
      P (stepFrame C f rest st).1) :
    ∀ n st out, crawlFuel C n st = some out → P st → P out.final := by
  intro n
  induction n with
  | zero => intro st out h; simp [crawlFuel] at h
  | succ n ih =>
    intro st out h hP
    cases hstack : st.stack with
    | nil =>
      simp only [crawlFuel, hstack] at h
      cases h
      exact hP
    | cons f rest =>
      simp only [crawlFuel, hstack] at h
      have hP1 := hstep f rest st hstack hP
      rcases hsf : stepFrame C f rest st with ⟨st1, err1⟩
      rw [hsf] at h hP1
      cases err1 with
      | some e =>
        simp only at h
        cases h
        exact hP1
      | none =>
        simp only at h
        exact ih st1 out h hP1

/-- The preservation scaffold lifted to the per-seed driver loop. -/
theorem main_run_preserve (C : Crawler) (P : St → Prop)
    (hstep : ∀ f rest st, st.stack = f :: rest → P st →
      P (stepFrame C f rest st).1) :
    ∀ seeds, (∀ s ∈ seeds, ∀ st, P st →
      P { st with graph := addEdge st.graph "root" s, stack := [⟨s, none, 0⟩] }) →
    ∀ n st out, mainFuel C n seeds st = some out → P st → P out.final := by
  intro seeds
  induction seeds with
  | nil =>
    intro _ n st out h hP
    simp only [mainFuel] at h
    cases h
    exact hP
  | cons s rest ih =>
    intro hseed n st out h hP
    simp only [mainFuel] at h
    cases hc : crawlFuel C n
        { st with graph := addEdge st.graph "root" s, stack := [⟨s, none, 0⟩] } with
    | none => rw [hc] at h; cases h
    | some out1 =>
      rw [hc] at h
      dsimp only at h
      have hP1 : P out1.final :=
        crawl_run_preserve C P hstep n _ out1 hc
          (hseed s (List.mem_cons_self s rest) st hP)
      cases herr : out1.err with
      | some e =>
        rw [herr] at h
        dsimp only at h
        cases h
        exact hP1
      | none =>
        rw [herr] at h
        exact ih (fun q hq => hseed q (List.mem_cons_of_mem s hq)) n
          out1.final out h hP1

/-- A lookup result is an entry of the graph. -/
theorem graphChildren_mem (g : Graph) (p : String) (cs : List String)
    (h : graphChildren g p = some cs) : (p, cs) ∈ g := by
  induction g with
  | nil => simp [graphChildren] at h
  | cons kv rest ih =>
    obtain ⟨k, vs⟩ := kv
    by_cases hk : k = p
    · subst hk
      simp [graphChildren] at h
      simp [h]
    · simp only [graphChildren, if_neg hk] at h
      exact List.mem_cons_of_mem _ (ih h)

/-- Appending the same suffix is cancellative on strings. -/
theorem str_append_cancel (a b t : String) (h : a ++ t = b ++ t) : a = b := by
  have hd : a.data ++ t.data = b.data ++ t.data := congrArg String.data h
  have hlen : a.data.length = b.data.length := by
    have h2 := congrArg List.length hd
    simp only [List.length_append] at h2
    omega
  have hdata : a.data = b.data := List.append_inj_left hd hlen
  exact congrArg String.mk hdata

/-- A broken-tagged string is never the root marker. -/
theorem tagged_ne_root (x : String) : x ++ brokenTag ≠ "root" := by
  intro h
  have h1 : pyEnds (x ++ brokenTag) brokenTag = true := pyEnds_append_brokenTag x
  rw [h] at h1
  exact absurd h1 (by decide)

/-- A broken-tagged string is never a sane address. -/
theorem tagged_not_goodAddr (x : String) : ¬ goodAddr (x ++ brokenTag) := by
  intro h
  have h1 : pyEnds (x ++ brokenTag) brokenTag = true := pyEnds_append_brokenTag x
  rw [h.2] at h1
  cases h1

/-- For sane addresses, an entry standing for `u` hits `q` exactly when
`q = u`. -/
theorem entryHits_true_iff (u q c : String) (hu : goodAddr u)
    (hq : goodAddr q) (hc : c = u ∨ c = u ++ brokenTag) :
    entryHits q c = true ↔ q = u := by
  constructor
  · intro h
    have h2 : c = q ∨ c = q ++ brokenTag := by simpa [entryHits] using h
    rcases h2 with hcq | hcq
    · rcases hc with rfl | rfl
      · exact hcq.symm
      · exact absurd (hcq ▸ hq) (tagged_not_goodAddr u)
    · rcases hc with rfl | rfl
      · exact absurd (hcq ▸ hu) (tagged_not_goodAddr q)
      · exact (str_append_cancel u q brokenTag hcq).symm
  · intro h
    subst h
    rcases hc with rfl | rfl
    · simp [entryHits]
    · simp [entryHits]

/-- Counting child entries distributes over an appended entry. -/
theorem occInList_append (u : String) (cs : List String) (c : String) :
    occInList u (cs ++ [c]) =
      occInList u cs + (if entryHits u c then 1 else 0) := by
  by_cases h : entryHits u c <;>
    simp [occInList, List.filter_append, h]

/-- How `addEdge` changes the per-address child count. -/
theorem occ_addEdge (g : Graph) (p c u : String) :
    occ (addEdge g p c) u =
      occ g u +
        (if p = "root" then 0 else if entryHits u c then 1 else 0) := by
  induction g with
  | nil =>
    by_cases hp : p = "root" <;> by_cases hh : entryHits u c <;>
      simp [addEdge, occ, occInList, hp, hh]
  | cons kv rest ih =>
    obtain ⟨k, vs⟩ := kv
    by_cases hk : k = p
    · subst hk
      by_cases hp : k = "root"
      · subst hp
        simp [addEdge, occ, occInList_append]
      · simp [addEdge, occ, hp, occInList_append]
        by_cases hh : entryHits u c
        · simp [hh]
          omega
        · simp [hh]
    · simp only [addEdge, if_neg hk]
      by_cases hkr : k = "root" <;> simp [occ, hkr] at ih ⊢ <;> omega

/-- The graph-side components of `stInv` survive enlarging the visited
list while the graph is unchanged. -/
theorem stInv_graph_lift (g : Graph) (v : List String) (u : String)
    (hkeys : ∀ k cs, (k, cs) ∈ g → k = "root" ∨ k ∈ v)
    (hch : ∀ k cs, (k, cs) ∈ g → k ≠ "root" → ∀ c0 ∈ cs,
      ∃ x, x ∈ v ∧ (c0 = x ∨ c0 = x ++ brokenTag) ∧ rankIn v k < rankIn v x)
    (hocc : ∀ q, goodAddr q → occ g q ≤ 1 ∧ (1 ≤ occ g q → q ∈ v)) :
    (∀ k cs, (k, cs) ∈ g → k = "root" ∨ k ∈ v ++ [u]) ∧
    (∀ k cs, (k, cs) ∈ g → k ≠ "root" → ∀ c0 ∈ cs,
      ∃ x, x ∈ v ++ [u] ∧ (c0 = x ∨ c0 = x ++ brokenTag) ∧
        rankIn (v ++ [u]) k < rankIn (v ++ [u]) x) ∧
    (∀ q, goodAddr q → occ g q ≤ 1 ∧ (1 ≤ occ g q → q ∈ v ++ [u])) := by
  refine ⟨?_, ?_, ?_⟩
  · intro k cs hk
    rcases hkeys k cs hk with h | h
    · exact Or.inl h
    · exact Or.inr (List.mem_append.mpr (Or.inl h))
  · intro k cs hk hkr c0 hc0
    obtain ⟨x, hxv, hcx, hrank⟩ := hch k cs hk hkr c0 hc0
    have hkv : k ∈ v := by
      rcases hkeys k cs hk with h | h
      · exact absurd h hkr
      · exact h
    refine ⟨x, List.mem_append.mpr (Or.inl hxv), hcx, ?_⟩
    rw [rankIn_append_of_mem v [u] k hkv, rankIn_append_of_mem v [u] x hxv]
    exact hrank
  · intro q hq
    exact ⟨(hocc q hq).1,
      fun h => List.mem_append.mpr (Or.inl ((hocc q hq).2 h))⟩

/-- The graph-side components of `stInv` survive recording one new edge
`p -> c` for the address `u` being processed (`c` is `u`, plain or
broken-tagged), while `u` is appended to the visited list. -/
theorem stInv_graph_extend (g : Graph) (v : List String) (u p c : String)
    (hvg : ∀ x ∈ v, goodAddr x)
    (hkeys : ∀ k cs, (k, cs) ∈ g → k = "root" ∨ k ∈ v)
    (hch : ∀ k cs, (k, cs) ∈ g → k ≠ "root" → ∀ c0 ∈ cs,
      ∃ x, x ∈ v ∧ (c0 = x ∨ c0 = x ++ brokenTag) ∧ rankIn v k < rankIn v x)
    (hroot : ∀ cs, ("root", cs) ∈ g → ∀ c0 ∈ cs, goodAddr c0)
    (hocc : ∀ q, goodAddr q → occ g q ≤ 1 ∧ (1 ≤ occ g q → q ∈ v))
    (hu : goodAddr u) (hunv : u ∉ v) (hpv : p ∈ v)
    (hc : c = u ∨ c = u ++ brokenTag) :
    (∀ k cs, (k, cs) ∈ addEdge g p c → k = "root" ∨ k ∈ v ++ [u]) ∧
    (∀ k cs, (k, cs) ∈ addEdge g p c → k ≠ "root" → ∀ c0 ∈ cs,
      ∃ x, x ∈ v ++ [u] ∧ (c0 = x ∨ c0 = x ++ brokenTag) ∧
        rankIn (v ++ [u]) k < rankIn (v ++ [u]) x) ∧
    (∀ cs, ("root", cs) ∈ addEdge g p c → ∀ c0 ∈ cs, goodAddr c0) ∧
    (∀ q, goodAddr q → occ (addEdge g p c) q ≤ 1 ∧
      (1 ≤ occ (addEdge g p c) q → q ∈ v ++ [u])) := by
  have hpg : goodAddr p := hvg p hpv
  have hpr : p ≠ "root" := hpg.1
  have hrk : ∀ y, y ∈ v → rankIn (v ++ [u]) y = rankIn v y :=
    fun y hy => rankIn_append_of_mem v [u] y hy
  have hnew : ∀ c0, c0 = c →
      ∃ x, x ∈ v ++ [u] ∧ (c0 = x ∨ c0 = x ++ brokenTag) ∧
        rankIn (v ++ [u]) p < rankIn (v ++ [u]) x := by
    intro c0 hc0
    subst hc0
    refine ⟨u, List.mem_append.mpr (Or.inr (by simp)), hc, ?_⟩
    rw [hrk p hpv, rankIn_append_fresh v u hunv]
    exact rankIn_lt_length v p hpv
  refine ⟨?_, ?_, ?_, ?_⟩
  · intro k cs hk
    rcases addEdge_entry_cases g p c k cs hk with hold | ⟨hkp, _⟩
    · rcases hkeys k cs hold with h | h
      · exact Or.inl h
      · exact Or.inr (List.mem_append.mpr (Or.inl h))
    · subst hkp
      exact Or.inr (List.mem_append.mpr (Or.inl hpv))
  · intro k cs hk hkr c0 hc0
    rcases addEdge_entry_cases g p c k cs hk with hold | ⟨hkp, hcs⟩
    · obtain ⟨x, hxv, hcx, hrank⟩ := hch k cs hold hkr c0 hc0
      have hkv : k ∈ v := by
        rcases hkeys k cs hold with h | h
        · exact absurd h hkr
        · exact h
      refine ⟨x, List.mem_append.mpr (Or.inl hxv), hcx, ?_⟩
      rw [hrk k hkv, hrk x hxv]
      exact hrank
    · subst hkp
      rcases hcs with hcs | ⟨cs0, hin0, hcs0⟩
      · subst hcs
        simp only [List.mem_singleton] at hc0
        exact hnew c0 hc0
      · subst hcs0
        rcases List.mem_append.mp hc0 with h0 | h0
        · obtain ⟨x, hxv, hcx, hrank⟩ := hch k cs0 hin0 hkr c0 h0
          refine ⟨x, List.mem_append.mpr (Or.inl hxv), hcx, ?_⟩
          rw [hrk k hpv, hrk x hxv]
          exact hrank
        · simp only [List.mem_singleton] at h0
          exact hnew c0 h0
  · intro cs hk c0 hc0
    rcases addEdge_entry_cases g p c "root" cs hk with hold | ⟨hkp, _⟩
    · exact hroot cs hold c0 hc0
    · exact absurd hkp.symm hpr
  · intro q hq
    rw [occ_addEdge g p c q, if_neg hpr]
    by_cases hequ : q = u
    · subst hequ
      have h0 : occ g q = 0 := by
        rcases Nat.eq_zero_or_pos (occ g q) with h | h
        · exact h
        · exact absurd ((hocc q hq).2 h) hunv
      have hhit : entryHits q c = true :=
        (entryHits_true_iff q q c hu hq hc).mpr rfl
      refine ⟨?_, fun _ => List.mem_append.mpr (Or.inr (by simp))⟩
      simp [h0, hhit]
    · have hnohit : entryHits q c = false := by
        cases hb : entryHits q c with
        | false => rfl
        | true =>
          exact absurd ((entryHits_true_iff u q c hu hq hc).mp hb) hequ
      refine ⟨?_, fun h => ?_⟩
      · simp only [hnohit]
        simpa using (hocc q hq).1
      · simp only [hnohit] at h
        exact List.mem_append.mpr (Or.inl ((hocc q hq).2 (by simpa using h)))

/-- One loop iteration preserves the structural invariant, provided every
extracted link is a sane address. -/
theorem stInv_step (C : Crawler)
    (hex : ∀ content base l, l ∈ C.extract content base → goodAddr l) :
    ∀ f rest st, st.stack = f :: rest → stInv st →
      stInv (stepFrame C f rest st).1 := by
  intro f rest st hstack hInv
  unfold stInv at hInv ⊢
  obtain ⟨hnd, hvg, hstk, hkeys, hch, hroot, hocc⟩ := hInv
  have hfme : f ∈ st.stack := by
    rw [hstack]
    exact List.mem_cons_self f rest
  have hfg : goodAddr f.url := (hstk f hfme).1
  have hrest : ∀ fr ∈ rest, goodAddr fr.url ∧
      ∀ p, fr.parent = some p → p ∈ st.visited := by
    intro fr hfr
    exact hstk fr (by rw [hstack]; exact List.mem_cons_of_mem f hfr)
  by_cases hg : f.url ∉ st.visited ∧ f.depth ≤ C.maxDepth
  case neg =>
    rw [stepFrame_skip C f rest st hg]
    exact ⟨hnd, hvg, fun fr hfr => hrest fr hfr, hkeys, hch, hroot, hocc⟩
  case pos =>
    obtain ⟨hv, hd⟩ := hg
    have hndv : (st.visited ++ [f.url]).Nodup := by
      simp [List.nodup_append, hnd, hv]
    have hvg2 : ∀ x ∈ st.visited ++ [f.url], goodAddr x := by
      intro x hx
      rcases List.mem_append.mp hx with hx | hx
      · exact hvg x hx
      · simp only [List.mem_singleton] at hx
        rw [hx]
        exact hfg
    have hrest2 : ∀ fr ∈ rest, goodAddr fr.url ∧
        ∀ p, fr.parent = some p → p ∈ st.visited ++ [f.url] := by
      intro fr hfr
      exact ⟨(hrest fr hfr).1,
        fun p hp => List.mem_append.mpr (Or.inl ((hrest fr hfr).2 p hp))⟩
    cases hfetch : C.fetch f.url with
    | none =>
      rw [stepFrame_fail C f rest st hv hd hfetch]
      cases hpar : f.parent with
      | none =>
        obtain ⟨hk2, hc2, ho2⟩ :=
          stInv_graph_lift st.graph st.visited f.url hkeys hch hocc
        exact ⟨hndv, hvg2, hrest2, hk2, hc2, hroot, ho2⟩
      | some p =>
        dsimp only
        by_cases hpe : p = ""
        · have hne : ¬(("" : String) ≠ "") := fun hcon => hcon rfl
          rw [hpe, if_neg hne]
          obtain ⟨hk2, hc2, ho2⟩ :=
            stInv_graph_lift st.graph st.visited f.url hkeys hch hocc
          exact ⟨hndv, hvg2, hrest2, hk2, hc2, hroot, ho2⟩
        · rw [if_pos hpe]
          have hpv : p ∈ st.visited := (hstk f hfme).2 p hpar
          have hcE : (if pyStarts (pyLower f.url) "mailto" then f.url
                else if C.brokenLinks then f.url ++ brokenTag else f.url)
                  = f.url ∨
              (if pyStarts (pyLower f.url) "mailto" then f.url
                else if C.brokenLinks then f.url ++ brokenTag else f.url)
                  = f.url ++ brokenTag := by
            by_cases h1 : pyStarts (pyLower f.url) "mailto"
            · simp [h1]
            · by_cases h2 : C.brokenLinks <;> simp [h1, h2]
          obtain ⟨hk2, hc2, hr2, ho2⟩ :=
            stInv_graph_extend st.graph st.visited f.url p _
              hvg hkeys hch hroot hocc hfg hv hpv hcE
          exact ⟨hndv, hvg2, hrest2, hk2, hc2, hr2, ho2⟩
    | some content =>
      cases han : (analyzeNode C f.parent f.url content).1 with
      | some e =>
        rw [stepFrame_abort C f rest st content e hv hd hfetch han]
        obtain ⟨hk2, hc2, ho2⟩ :=
          stInv_graph_lift st.graph st.visited f.url hkeys hch hocc
        exact ⟨hndv, hvg2, hrest2, hk2, hc2, hroot, ho2⟩
      | none =>
        rw [stepFrame_ok C f rest st content hv hd hfetch han]
        have hkid : ∀ fr ∈ (C.extract content f.url).map
            (fun l => Frame.mk l (some f.url) (f.depth + 1)),
            goodAddr fr.url ∧
              ∀ p, fr.parent = some p → p ∈ st.visited ++ [f.url] := by
          intro fr hfr
          obtain ⟨l, hl, hfr⟩ := List.mem_map.mp hfr
          rw [← hfr]
          refine ⟨hex content f.url l hl, ?_⟩
          intro p hp
          simp only [Option.some.injEq] at hp
          rw [← hp]
          exact List.mem_append.mpr (Or.inr (by simp))
        have hstk2 : ∀ (b : Bool), ∀ fr ∈
            ((if b then (C.extract content f.url).map
                (fun l => Frame.mk l (some f.url) (f.depth + 1))
              else []).reverse ++ rest),
            goodAddr fr.url ∧
              ∀ p, fr.parent = some p → p ∈ st.visited ++ [f.url] := by
          intro b fr hfr
          cases b
          · simp only [Bool.false_eq_true, if_false, List.reverse_nil,
              List.nil_append] at hfr
            exact hrest2 fr hfr
          · simp only [if_true, List.mem_append, List.mem_reverse] at hfr
            rcases hfr with hfr | hfr
            · exact hkid fr hfr
            · exact hrest2 fr hfr
        cases hpar : f.parent with
        | none =>
          dsimp only
          obtain ⟨hk2, hc2, ho2⟩ :=
            stInv_graph_lift st.graph st.visited f.url hkeys hch hocc
          exact ⟨hndv, hvg2, hstk2 true, hk2, hc2, hroot, ho2⟩
        | some p =>
          dsimp only
          by_cases hpe : p = ""
          · have hne : ¬(("" : String) ≠ "") := fun hcon => hcon rfl
            rw [hpe]
            rw [if_neg hne, if_neg hne]
            obtain ⟨hk2, hc2, ho2⟩ :=
              stInv_graph_lift st.graph st.visited f.url hkeys hch hocc
            exact ⟨hndv, hvg2, hstk2 true, hk2, hc2, hroot, ho2⟩
          · rw [if_pos hpe, if_pos hpe]
            have hpv : p ∈ st.visited := (hstk f hfme).2 p hpar
            obtain ⟨hk2, hc2, hr2, ho2⟩ :=
              stInv_graph_extend st.graph st.visited f.url p f.url
                hvg hkeys hch hroot hocc hfg hv hpv (Or.inl rfl)
            exact ⟨hndv, hvg2, hstk2 (inScope C.anchor p), hk2, hc2, hr2, ho2⟩

/-! ## Shared preservation helpers -/

/-- Appending a fresh element keeps a trace duplicate-free and inside the
enlarged visited set. -/
theorem nodupSub_extend (fe v : List String) (u : String)
    (hnd : fe.Nodup) (hsub : ∀ x ∈ fe, x ∈ v) (hu : u ∉ v) :
    (fe ++ [u]).Nodup ∧ ∀ x ∈ fe ++ [u], x ∈ v ++ [u] := by
  have hnew : u ∉ fe := fun hc => hu (hsub u hc)
  refine ⟨?_, ?_⟩
  · simp [List.nodup_append, hnd, hnew]
  · intro x hx
    rcases List.mem_append.mp hx with hx | hx
    · exact List.mem_append.mpr (Or.inl (hsub x hx))
    · exact List.mem_append.mpr (Or.inr hx)

/-! ## Claim C2: at-most-once visitation -/

/-- C2.  Across a whole run of the engine, `download_page` is invoked on
every address at most once, and every fetched address ends up in the
visited set (in particular an address whose fetch failed is marked visited,
webpage.py line 301, so rediscovering it never triggers a second fetch). -/
theorem c2_at_most_once_fetch (C : Crawler) (n : Nat) (st : St) (out : Outcome)
    (h0 : st.fetched.Nodup) (h1 : ∀ u ∈ st.fetched, u ∈ st.visited)
    (hrun : crawlFuel C n st = some out) :
    (∀ u, out.final.fetched.count u ≤ 1) ∧
      ∀ u ∈ out.final.fetched, u ∈ out.final.visited := by
  have key : out.final.fetched.Nodup ∧
      ∀ u ∈ out.final.fetched, u ∈ out.final.visited := by
    refine crawl_run_preserve C
      (fun s => s.fetched.Nodup ∧ ∀ u ∈ s.fetched, u ∈ s.visited)
      ?_ n st out hrun ⟨h0, h1⟩
    intro f rest s hstack hP
    obtain ⟨hnd, hsub⟩ := hP
    by_cases hg : f.url ∉ s.visited ∧ f.depth ≤ C.maxDepth
    · obtain ⟨hv, hd⟩ := hg
      cases hf : C.fetch f.url with
      | none =>
        rw [stepFrame_fail C f rest s hv hd hf]
        exact nodupSub_extend s.fetched s.visited f.url hnd hsub hv
      | some content =>
        cases ha : (analyzeNode C f.parent f.url content).1 with
        | some e =>
          rw [stepFrame_abort C f rest s content e hv hd hf ha]
          exact nodupSub_extend s.fetched s.visited f.url hnd hsub hv
        | none =>
          rw [stepFrame_ok C f rest s content hv hd hf ha]
          exact nodupSub_extend s.fetched s.visited f.url hnd hsub hv
    · rw [stepFrame_skip C f rest s hg]
      exact ⟨hnd, hsub⟩
  exact ⟨fun u => List.nodup_iff_count_le_one.mp key.1 u, key.2⟩

/-- Witness for C2 at a concrete run: the four-page site fetches each of
its four pages exactly once. -/
theorem c2_witness :
    (∀ u, c1Out.final.fetched.count u ≤ 1) ∧
      ∀ u ∈ c1Out.final.fetched, u ∈ c1Out.final.visited :=
  c2_at_most_once_fetch cexCrawler 10 (initSt [⟨"s", none, 0⟩] [] []) c1Out
    (by simp [initSt]) (by simp [initSt]) (by rfl)

/-! ## Claim C3: depth bound -/

/-- C3.  Every frame the engine actually processes satisfies
`depth ≤ maxDepth` (first conjunct), and a popped frame whose depth exceeds
`maxDepth` is discarded without a fetch and without any change to the
visited set, the graph, or any trace (second conjunct: the loop simply
continues on the remaining stack from an otherwise identical state). -/
theorem c3_depth_bound :
    (∀ (C : Crawler) (n : Nat) (st : St) (out : Outcome),
      (∀ fr ∈ st.processed, fr.depth ≤ C.maxDepth) →
      crawlFuel C n st = some out →
      ∀ fr ∈ out.final.processed, fr.depth ≤ C.maxDepth) ∧
    (∀ (C : Crawler) (n : Nat) (st : St) (f : Frame) (rest : List Frame),
      st.stack = f :: rest → C.maxDepth < f.depth →
      crawlFuel C (n + 1) st = crawlFuel C n { st with stack := rest }) := by
  constructor
  · intro C n st out h0 hrun
    refine crawl_run_preserve C
      (fun s => ∀ fr ∈ s.processed, fr.depth ≤ C.maxDepth)
      ?_ n st out hrun h0
    intro f rest s hstack hP
    by_cases hg : f.url ∉ s.visited ∧ f.depth ≤ C.maxDepth
    · obtain ⟨hv, hd⟩ := hg
      have hP1 : ∀ fr ∈ s.processed ++ [f], fr.depth ≤ C.maxDepth := by
        intro fr hfr
        rcases List.mem_append.mp hfr with hfr | hfr
        · exact hP fr hfr
        · simp at hfr; subst hfr; exact hd
      cases hf : C.fetch f.url with
      | none =>
        rw [stepFrame_fail C f rest s hv hd hf]
        exact hP1
      | some content =>
        cases ha : (analyzeNode C f.parent f.url content).1 with
        | some e =>
          rw [stepFrame_abort C f rest s content e hv hd hf ha]
          exact hP1
        | none =>
          rw [stepFrame_ok C f rest s content hv hd hf ha]
          exact hP1
    · rw [stepFrame_skip C f rest s hg]
      exact hP
  · intro C n st f rest hstack hlt
    have hskip : stepFrame C f rest st = ({ st with stack := rest }, none) :=
      stepFrame_skip C f rest st (fun h => absurd hlt (Nat.not_lt.mpr h.2))
    simp only [crawlFuel, hstack, hskip]

/-- Witness for C3: a depth-9 bound keeps all processed frames within
bound, and a frame popped at depth 20 is discarded by the pure skip
step. -/
theorem c3_witness :
    (∀ fr ∈ c1Out.final.processed, fr.depth ≤ cexCrawler.maxDepth) ∧
      crawlFuel failCrawler 1 (initSt [⟨"a", none, 20⟩] [] []) =
        crawlFuel failCrawler 0 { initSt [⟨"a", none, 20⟩] [] [] with stack := [] } :=
  ⟨c3_depth_bound.1 cexCrawler 10 (initSt [⟨"s", none, 0⟩] [] []) c1Out
      (by simp [initSt]) (by rfl),
    c3_depth_bound.2 failCrawler 0 (initSt [⟨"a", none, 20⟩] [] [])
      ⟨"a", none, 20⟩ [] rfl (by decide)⟩

/-! ## Claim C4: scope gate for expansion -/

/-- C4.  After a successful fetch of `u` popped with parent `p` and depth
`d`, children are pushed (each with parent `u` and depth `d + 1`) if and
only if the scope test passes on `p` — and when the parent is the synthetic
root marker (`None`; `u` is a top-level seed) children are always pushed.
The first conjunct treats a real parent `p` (the pushed list is `[]`
exactly when `inScope anchor p` fails, so an out-of-scope non-seed parent
contributes no child frames for `u`, and `u` is never processed again
because it is now visited); the second treats a seed frame. -/
theorem c4_scope_gate :
    (∀ (C : Crawler) (n : Nat) (st : St) (u p : String) (d : Nat)
        (rest : List Frame) (content : String),
      st.stack = ⟨u, some p, d⟩ :: rest → p ≠ "" → u ∉ st.visited →
      d ≤ C.maxDepth → C.fetch u = some content →
      (analyzeNode C (some p) u content).1 = none →
      crawlFuel C (n + 1) st = crawlFuel C n
        { st with
          stack :=
            (if inScope C.anchor p then
              (C.extract content u).map (fun l => Frame.mk l (some u) (d + 1))
             else []).reverse ++ rest
          visited := st.visited ++ [u]
          graph := addEdge st.graph p u
          fetched := st.fetched ++ [u]
          processed := st.processed ++ [⟨u, some p, d⟩]
          pushed :=
            st.pushed ++
              (if inScope C.anchor p then
                (C.extract content u).map (fun l => Frame.mk l (some u) (d + 1))
               else [])
          analyzed := st.analyzed ++ [(u, (analyzeNode C (some p) u content).2)] }) ∧
    (∀ (C : Crawler) (n : Nat) (st : St) (u : String) (d : Nat)
        (rest : List Frame) (content : String),
      st.stack = ⟨u, none, d⟩ :: rest → u ∉ st.visited →
      d ≤ C.maxDepth → C.fetch u = some content →
      (analyzeNode C none u content).1 = none →
      crawlFuel C (n + 1) st = crawlFuel C n
        { st with
          stack :=
            ((C.extract content u).map
              (fun l => Frame.mk l (some u) (d + 1))).reverse ++ rest
          visited := st.visited ++ [u]
          fetched := st.fetched ++ [u]
          processed := st.processed ++ [⟨u, none, d⟩]
          pushed :=
            st.pushed ++
              (C.extract content u).map (fun l => Frame.mk l (some u) (d + 1))
          analyzed := st.analyzed ++ [(u, (analyzeNode C none u content).2)] }) := by
  constructor
  · intro C n st u p d rest content hstack hp hv hd hf ha
    have hsf := stepFrame_ok C ⟨u, some p, d⟩ rest st content hv hd hf ha
    simp only [crawlFuel, hstack, hsf]
    simp [hp]
  · intro C n st u d rest content hstack hv hd hf ha
    have hsf := stepFrame_ok C ⟨u, none, d⟩ rest st content hv hd hf ha
    simp only [crawlFuel, hstack, hsf]
    simp

/-- Witness for C4, both conjuncts, on the four-page site: processing
`b` (parent `s`, in scope because the anchor is empty) pushes
`(c, b, 2)` and `(x, b, 2)`; processing the seed `s` (parent `None`)
pushes `(b, s, 1)`. -/
theorem c4_witness :
    crawlFuel cexCrawler 10
        ⟨[⟨"b", some "s", 1⟩], ["s"], [], ["s"], [⟨"s", none, 0⟩],
          [⟨"b", some "s", 1⟩], [("s", [])]⟩ =
      crawlFuel cexCrawler 9
        { (⟨[⟨"b", some "s", 1⟩], ["s"], [], ["s"], [⟨"s", none, 0⟩],
            [⟨"b", some "s", 1⟩], [("s", [])]⟩ : St) with
          stack :=
            (if inScope cexCrawler.anchor "s" then
              (cexCrawler.extract "b" "b").map
                (fun l => Frame.mk l (some "b") (1 + 1))
             else []).reverse ++ []
          visited := ["s"] ++ ["b"]
          graph := addEdge [] "s" "b"
          fetched := ["s"] ++ ["b"]
          processed := [⟨"s", none, 0⟩] ++ [⟨"b", some "s", 1⟩]
          pushed :=
            [⟨"b", some "s", 1⟩] ++
              (if inScope cexCrawler.anchor "s" then
                (cexCrawler.extract "b" "b").map
                  (fun l => Frame.mk l (some "b") (1 + 1))
               else [])
          analyzed :=
            [("s", [])] ++ [("b", (analyzeNode cexCrawler (some "s") "b" "b").2)] } ∧
    crawlFuel cexCrawler 10 (initSt [⟨"s", none, 0⟩] [] []) =
      crawlFuel cexCrawler 9
        { initSt [⟨"s", none, 0⟩] [] [] with
          stack :=
            ((cexCrawler.extract "s" "s").map
              (fun l => Frame.mk l (some "s") (0 + 1))).reverse ++ []
          visited := [] ++ ["s"]
          fetched := [] ++ ["s"]
          processed := [] ++ [⟨"s", none, 0⟩]
          pushed := [] ++ (cexCrawler.extract "s" "s").map
            (fun l => Frame.mk l (some "s") (0 + 1))
          analyzed := [] ++ [("s", (analyzeNode cexCrawler none "s" "s").2)] } :=
  ⟨c4_scope_gate.1 cexCrawler 9 _ "b" "s" 1 [] "b" rfl (by decide) (by decide)
      (by decide) (by rfl) (by rfl),
    c4_scope_gate.2 cexCrawler 9 _ "s" 0 [] "s" rfl (by decide) (by decide)
      (by rfl) (by rfl)⟩

/-! ## Claim C5: case sensitivity of the scope comparison -/

/-- C5 counterexample.  The scope test is NOT case-insensitive in the
scope substring: the code lowercases only the address
(`anchor in current_url.lower()`, webpage.py lines 236, 253, 290).
Changing the case of the substring from `a` to `A` flips the decision on
address `a`, and the decision differs from the both-sides-lowercased test
the claim describes. -/
theorem c5_counterexample :
    inScope "A" "a" = false ∧ inScope "a" "a" = true ∧
      pyIn (pyLower "A") (pyLower "a") = true := by decide

/-- C5 amended.  The scope decision is invariant under case changes of the
ADDRESS only: it holds iff the substring, exactly as configured, occurs in
the lowercased address. -/
theorem c5_scope_lowercases_address_only (anchor a1 a2 : String)
    (h : pyLower a1 = pyLower a2) :
    inScope anchor a1 = inScope anchor a2 ∧
      inScope anchor a1 = pyIn anchor (pyLower a1) := by
  constructor
  · simp only [inScope, h]
  · rfl

/-- Witness for the amended C5 at a concrete instance. -/
theorem c5_witness :
    inScope "x" "Ab" = inScope "x" "aB" ∧
      inScope "x" "Ab" = pyIn "x" (pyLower "Ab") :=
  c5_scope_lowercases_address_only "x" "Ab" "aB" (by decide)

/-! ## Claim C6: fetch-failure handling -/

/-- C6.  When the fetch of `u` (popped with non-root parent `p`, within
depth) fails, the engine does not raise and does not stop: the loop
continues on the remaining stack (the equation's right-hand side is another
loop state, not an error outcome), `u` is marked visited, the edge
`p -> u` is recorded — tagged `-BROKEN` when broken-link reporting is on,
except that a `mailto` address is recorded plain — and no child frames are
pushed (`stack := rest`, `pushed` unchanged).  Webpage.py lines 299-313. -/
theorem c6_fetch_failure (C : Crawler) (n : Nat) (st : St) (u p : String)
    (d : Nat) (rest : List Frame)
    (hstack : st.stack = ⟨u, some p, d⟩ :: rest) (hp : p ≠ "")
    (hv : u ∉ st.visited) (hd : d ≤ C.maxDepth) (hf : C.fetch u = none) :
    crawlFuel C (n + 1) st = crawlFuel C n
      { st with
        stack := rest
        visited := st.visited ++ [u]
        graph := addEdge st.graph p
          (if pyStarts (pyLower u) "mailto" then u
           else if C.brokenLinks then u ++ brokenTag else u)
        fetched := st.fetched ++ [u]
        processed := st.processed ++ [⟨u, some p, d⟩] } := by
  have hsf := stepFrame_fail C ⟨u, some p, d⟩ rest st hv hd hf
  simp only [crawlFuel, hstack, hsf]
  simp [hp]

/-- Witness for C6: a failing fetch of `dead` under parent `s` with the
broken-links flag unset records the plain edge `s -> dead`. -/
theorem c6_witness :
    crawlFuel failCrawler 3
        ⟨[⟨"dead", some "s", 1⟩], ["s"], [], ["s"], [⟨"s", none, 0⟩], [], []⟩ =
      crawlFuel failCrawler 2
        { (⟨[⟨"dead", some "s", 1⟩], ["s"], [], ["s"], [⟨"s", none, 0⟩],
            [], []⟩ : St) with
          stack := []
          visited := ["s"] ++ ["dead"]
          graph := addEdge [] "s"
            (if pyStarts (pyLower "dead") "mailto" then "dead"
             else if failCrawler.brokenLinks then "dead" ++ brokenTag else "dead")
          fetched := ["s"] ++ ["dead"]
          processed := [⟨"s", none, 0⟩] ++ [⟨"dead", some "s", 1⟩] } :=
  c6_fetch_failure failCrawler 2 _ "dead" "s" 1 [] rfl (by decide) (by decide)
    (by decide) (by rfl)

/-! ## Claim C7: analyzer failures -/

/-- C7 counterexample.  Analyzer failures are NOT non-fatal: the analyzer
calls at webpage.py lines 254 and 273 are not wrapped in try/except (only
the per-word suggestion printing at lines 259-263 is), so a raise
propagates out of `crawl_web`.  Concretely: with spelling enabled and a
spell checker that raises `boom`, the run over the two seed frames `a`,
`b` stops with the exception after processing `a`; the frame `b` is still
on the stack, never processed — the traversal does not continue to
completion as the claim states. -/
theorem c7_counterexample :
    crawlFuel c7Crawler 10 (initSt [⟨"a", none, 0⟩, ⟨"b", none, 0⟩] [] [])
      = some ⟨⟨[⟨"b", none, 0⟩], ["a"], [], ["a"], [⟨"a", none, 0⟩], [],
          [("a", ["spell"])]⟩, some "boom"⟩ := by rfl

/-- C7 amended.  If an enabled content analyzer raises while processing a
successfully fetched node, the exception propagates out of the loop: the
run ends with that exception, the node is marked visited but gets no
recorded edge and pushes no children, and the remaining frames are left
unprocessed. -/
theorem c7_analyzer_raise_aborts (C : Crawler) (n : Nat) (st : St)
    (f : Frame) (rest : List Frame) (content e : String)
    (hstack : st.stack = f :: rest) (hv : f.url ∉ st.visited)
    (hd : f.depth ≤ C.maxDepth) (hf : C.fetch f.url = some content)
    (ha : (analyzeNode C f.parent f.url content).1 = some e) :
    crawlFuel C (n + 1) st =
      some ⟨{ st with
          stack := rest
          visited := st.visited ++ [f.url]
          fetched := st.fetched ++ [f.url]
          processed := st.processed ++ [f]
          analyzed :=
            st.analyzed ++ [(f.url, (analyzeNode C f.parent f.url content).2)] },
        some e⟩ := by
  simp only [crawlFuel, hstack,
    stepFrame_abort C f rest st content e hv hd hf ha]

/-- Witness for the amended C7 at the concrete raising run. -/
theorem c7_witness :
    crawlFuel c7Crawler 10 (initSt [⟨"a", none, 0⟩, ⟨"b", none, 0⟩] [] []) =
      some ⟨{ initSt [⟨"a", none, 0⟩, ⟨"b", none, 0⟩] [] [] with
          stack := [⟨"b", none, 0⟩]
          visited := [] ++ ["a"]
          fetched := [] ++ ["a"]
          processed := [] ++ [⟨"a", none, 0⟩]
          analyzed := [] ++ [("a", (analyzeNode c7Crawler none "a" "page").2)] },
        some "boom"⟩ :=
  c7_analyzer_raise_aborts c7Crawler 9 _ ⟨"a", none, 0⟩ [⟨"b", none, 0⟩]
    "page" "boom" rfl (by decide) (by decide) (by rfl) (by rfl)

/-! ## Claim C1: edge completeness -/

/-- C1 counterexample.  Pushed but unprocessed frames get no edge.  On the
four-page site, `c` is discovered under parent `b` and under parent `x`,
and both frames `(c, b, 2)` and `(c, x, 3)` sit on the stack before either
is processed (the pop order is `s, b, x, c`).  The pushed trace of the run
contains both, but the final graph lists `b`'s children as `["x"]` only —
the edge `b -> c` claimed by edge completeness (and the second edge of the
spec's Scenario D) is never recorded, because the later frame `(c, b, 2)`
is popped after `c` is visited and dropped with no edge.  `c` is fetched
exactly once, so only the two-edge part of the claim fails. -/
theorem c1_counterexample :
    crawlFuel cexCrawler 10 (initSt [⟨"s", none, 0⟩] [] []) = some c1Out ∧
      (⟨"c", some "b", 2⟩ : Frame) ∈ c1Out.final.pushed ∧
      (⟨"c", some "x", 3⟩ : Frame) ∈ c1Out.final.pushed ∧
      graphChildren c1Out.final.graph "b" = some ["x"] ∧
      ¬("c" ∈ ["x"] ∨ "c" ++ brokenTag ∈ ["x"]) ∧
      c1Out.final.fetched.count "c" = 1 := by
  refine ⟨by rfl, by decide, by decide, by rfl, by decide, by rfl⟩

/-- C1 amended.  Edge completeness holds for every PROCESSED frame: if a
frame `(u, p, d)` with a truthy parent `p` passes the visited/depth guard
(so a fetch is attempted), then the final graph records an edge from `p`
to `u`, either plain or carrying the broken tag.  A pushed frame that is
popped when its address is already visited, or whose depth exceeds the
bound, is discarded without recording an edge — so when one address is
discovered via two parents before either occurrence is processed, only the
first processed occurrence yields an edge (and exactly one fetch is
attempted, `c2_at_most_once_fetch`). -/
theorem c1_edges_for_processed_frames (C : Crawler) (n : Nat) (st : St)
    (out : Outcome)
    (hA : ∀ p u c, (analyzeNode C p u c).1 = none)
    (h0 : ∀ fr ∈ st.processed, ∀ p, fr.parent = some p → p ≠ "" →
      hasChild st.graph p fr.url ∨ hasChild st.graph p (fr.url ++ brokenTag))
    (hrun : crawlFuel C n st = some out) :
    ∀ fr ∈ out.final.processed, ∀ p, fr.parent = some p → p ≠ "" →
      hasChild out.final.graph p fr.url ∨
        hasChild out.final.graph p (fr.url ++ brokenTag) := by
  refine crawl_run_preserve C
    (fun s => ∀ fr ∈ s.processed, ∀ p, fr.parent = some p → p ≠ "" →
      hasChild s.graph p fr.url ∨ hasChild s.graph p (fr.url ++ brokenTag))
    ?_ n st out hrun h0
  intro f rest s hstack hP
  by_cases hg : f.url ∉ s.visited ∧ f.depth ≤ C.maxDepth
  · obtain ⟨hv, hd⟩ := hg
    cases hf : C.fetch f.url with
    | none =>
      rw [stepFrame_fail C f rest s hv hd hf]
      intro fr hfr p hpar hp
      rcases List.mem_append.mp hfr with hfr | hfr
      · -- an old processed frame keeps its edge under the new graph
        have hold := hP fr hfr p hpar hp
        cases hparf : f.parent with
        | none => simpa [hparf] using hold
        | some q =>
          by_cases hq : q = ""
          · simpa [hparf, hq] using hold
          · rcases hold with hold | hold
            · refine Or.inl ?_
              simp only [hparf]
              rw [if_pos hq]
              exact hasChild_addEdge_mono _ _ _ _ _ hold
            · refine Or.inr ?_
              simp only [hparf]
              rw [if_pos hq]
              exact hasChild_addEdge_mono _ _ _ _ _ hold
      · -- the newly processed frame: its own edge was just added
        simp only [List.mem_singleton] at hfr
        rw [hfr] at hpar ⊢
        rw [hpar]
        dsimp only
        rw [if_pos hp]
        by_cases hm : pyStarts (pyLower f.url) "mailto"
        · exact Or.inl (by
            simpa [hm] using graphChildren_addEdge_same s.graph p f.url)
        · by_cases hb : C.brokenLinks
          · exact Or.inr (by
              simpa [hm, hb] using
                graphChildren_addEdge_same s.graph p (f.url ++ brokenTag))
          · exact Or.inl (by
              simpa [hm, hb] using graphChildren_addEdge_same s.graph p f.url)
    | some content =>
      cases ha : (analyzeNode C f.parent f.url content).1 with
      | some e => exact absurd (hA f.parent f.url content) (by simp [ha])
      | none =>
        rw [stepFrame_ok C f rest s content hv hd hf ha]
        intro fr hfr p hpar hp
        rcases List.mem_append.mp hfr with hfr | hfr
        · have hold := hP fr hfr p hpar hp
          cases hparf : f.parent with
          | none => simpa [hparf] using hold
          | some q =>
            by_cases hq : q = ""
            · simpa [hparf, hq] using hold
            · rcases hold with hold | hold
              · refine Or.inl ?_
                simp only [hparf]
                rw [if_pos hq]
                exact hasChild_addEdge_mono _ _ _ _ _ hold
              · refine Or.inr ?_
                simp only [hparf]
                rw [if_pos hq]
                exact hasChild_addEdge_mono _ _ _ _ _ hold
        · simp only [List.mem_singleton] at hfr
          rw [hfr] at hpar ⊢
          rw [hpar]
          dsimp only
          rw [if_pos hp]
          exact Or.inl (graphChildren_addEdge_same s.graph p f.url)
  · rw [stepFrame_skip C f rest s hg]
    exact hP

/-- Witness for the amended C1 on the four-page run, at the processed
frame `(b, s, 1)`: its edge `s -> b` is in the final graph. -/
theorem c1_witness :
    hasChild c1Out.final.graph "s" "b" ∨
      hasChild c1Out.final.graph "s" ("b" ++ brokenTag) :=
  c1_edges_for_processed_frames cexCrawler 10 (initSt [⟨"s", none, 0⟩] [] [])
    c1Out (fun _ _ _ => rfl) (by simp [initSt]) (by rfl)
    ⟨"b", some "s", 1⟩ (by decide) "s" rfl (by decide)

/-! ## Claim C8: analyzer gating asymmetry -/

/-- At one successfully analyzed node (no analyzer raised), the write-files
and spelling blocks ran iff their flag is set AND the node's own address is
in scope, while the grammar block ran iff its flag is set, scope
regardless.  Direct case analysis on the block structure of webpage.py
lines 234-277. -/
theorem analyzeNode_ran (C : Crawler) (parent : Option String)
    (u content : String)
    (h : (analyzeNode C parent u content).1 = none) :
    ("archive" ∈ (analyzeNode C parent u content).2 ↔
        C.writeFiles = true ∧ inScope C.anchor u = true) ∧
    ("spell" ∈ (analyzeNode C parent u content).2 ↔
        C.spelling = true ∧ inScope C.anchor u = true) ∧
    ("grammar" ∈ (analyzeNode C parent u content).2 ↔ C.punctuation = true) := by
  cases hwf : C.writeFiles <;> cases hsp : C.spelling <;> cases hpu : C.punctuation <;>
    cases hsc : inScope C.anchor u <;>
    cases har : C.archive parent u content <;>
    cases hspc : C.spellCheck content <;>
    cases hgrc : C.grammarCheck content <;>
    simp_all [analyzeNode]

/-- C8.  Across a whole run in which no analyzer raises, every successfully
fetched node's analysis record satisfies: spelling analysis and page
archiving ran iff enabled AND the node's own lowercased address contains
the scope substring, while grammar analysis ran iff enabled — regardless of
scope. -/
theorem c8_analyzer_gating (C : Crawler) (n : Nat) (st : St) (out : Outcome)
    (hA : ∀ p u c, (analyzeNode C p u c).1 = none)
    (h0 : ∀ e ∈ st.analyzed,
      ("archive" ∈ e.2 ↔ C.writeFiles = true ∧ inScope C.anchor e.1 = true) ∧
      ("spell" ∈ e.2 ↔ C.spelling = true ∧ inScope C.anchor e.1 = true) ∧
      ("grammar" ∈ e.2 ↔ C.punctuation = true))
    (hrun : crawlFuel C n st = some out) :
    ∀ e ∈ out.final.analyzed,
      ("archive" ∈ e.2 ↔ C.writeFiles = true ∧ inScope C.anchor e.1 = true) ∧
      ("spell" ∈ e.2 ↔ C.spelling = true ∧ inScope C.anchor e.1 = true) ∧
      ("grammar" ∈ e.2 ↔ C.punctuation = true) := by
  refine crawl_run_preserve C
    (fun s => ∀ e ∈ s.analyzed,
      ("archive" ∈ e.2 ↔ C.writeFiles = true ∧ inScope C.anchor e.1 = true) ∧
      ("spell" ∈ e.2 ↔ C.spelling = true ∧ inScope C.anchor e.1 = true) ∧
      ("grammar" ∈ e.2 ↔ C.punctuation = true))
    ?_ n st out hrun h0
  intro f rest s hstack hP
  by_cases hg : f.url ∉ s.visited ∧ f.depth ≤ C.maxDepth
  · obtain ⟨hv, hd⟩ := hg
    cases hf : C.fetch f.url with
    | none =>
      rw [stepFrame_fail C f rest s hv hd hf]
      exact hP
    | some content =>
      cases ha : (analyzeNode C f.parent f.url content).1 with
      | some e => exact absurd (hA f.parent f.url content) (by simp [ha])
      | none =>
        rw [stepFrame_ok C f rest s content hv hd hf ha]
        intro e he
        rcases List.mem_append.mp he with he | he
        · exact hP e he
        · simp only [List.mem_singleton] at he
          rw [he]
          exact analyzeNode_ran C f.parent f.url content ha
  · rw [stepFrame_skip C f rest s hg]
    exact hP

/-- Witness for C8: with anchor `a`, spelling and grammar enabled, the
analysis record of the in-scope node `a` (analyzed by spelling and grammar
but not archiving) satisfies the gating equivalences. -/
theorem c8_witness :
    ("archive" ∈ (("a", ["spell", "grammar"]) : String × List String).2 ↔
        c8Crawler.writeFiles = true ∧ inScope c8Crawler.anchor "a" = true) ∧
    ("spell" ∈ (("a", ["spell", "grammar"]) : String × List String).2 ↔
        c8Crawler.spelling = true ∧ inScope c8Crawler.anchor "a" = true) ∧
    ("grammar" ∈ (("a", ["spell", "grammar"]) : String × List String).2 ↔
        c8Crawler.punctuation = true) :=
  c8_analyzer_gating c8Crawler 5 (initSt [⟨"a", none, 0⟩, ⟨"b", none, 0⟩] [] [])
    ⟨⟨[], ["a", "b"], [], ["a", "b"], [⟨"a", none, 0⟩, ⟨"b", none, 0⟩], [],
        [("a", ["spell", "grammar"]), ("b", ["grammar"])]⟩, none⟩
    (fun p u c => by
      by_cases hsc : inScope "a" u <;>
        simp [analyzeNode, c8Crawler, hsc])
    (by simp [initSt]) (by rfl)
    ("a", ["spell", "grammar"]) (by decide)

/-! ## Claim C9: termination -/

theorem fBound_pos (C : Crawler) (b : Nat) (u : String) : 1 ≤ fBound C b u := by
  cases b <;> simp [fBound]

theorem stackW_cons (C : Crawler) (f : Frame) (rest : List Frame) :
    stackW C (f :: rest) = frameW C f + stackW C rest := by
  simp [stackW]

theorem stackW_append (C : Crawler) (a b : List Frame) :
    stackW C (a ++ b) = stackW C a + stackW C b := by
  simp [stackW]

theorem stackW_reverse (C : Crawler) (a : List Frame) :
    stackW C a.reverse = stackW C a := by
  simp [stackW, List.sum_reverse]

/-- The frames pushed for the children of a processed in-depth frame weigh
strictly less than the frame itself. -/
theorem kids_weight_lt (C : Crawler) (f : Frame) (content : String)
    (hd : f.depth ≤ C.maxDepth) (hf : C.fetch f.url = some content) :
    stackW C ((C.extract content f.url).map
        (fun l => Frame.mk l (some f.url) (f.depth + 1))) < frameW C f := by
  have hb : C.maxDepth + 1 - f.depth = (C.maxDepth - f.depth) + 1 :=
    Nat.succ_sub hd
  have hcl : childList C f.url = C.extract content f.url := by
    simp [childList, hf]
  have hkid : ∀ l : String,
      frameW C (Frame.mk l (some f.url) (f.depth + 1))
        = fBound C (C.maxDepth - f.depth) l := by
    intro l
    simp [frameW, Nat.succ_sub_succ]
  calc stackW C ((C.extract content f.url).map
        (fun l => Frame.mk l (some f.url) (f.depth + 1)))
      = ((C.extract content f.url).map
          (fBound C (C.maxDepth - f.depth))).sum := by
        simp only [stackW, List.map_map]
        congr 1
        apply List.map_congr_left
        intro l _
        exact hkid l
    _ < 1 + ((childList C f.url).map (fBound C (C.maxDepth - f.depth))).sum := by
        rw [hcl]
        exact Nat.lt_one_add_iff.mpr (Nat.le_refl _)
    _ = fBound C ((C.maxDepth - f.depth) + 1) f.url := by
        rw [fBound]
    _ = frameW C f := by rw [frameW, hb]

/-- Fuel exceeding the stack weight always suffices: the loop reaches the
empty stack (when no analyzer raises). -/
theorem crawl_fuel_sufficient (C : Crawler)
    (hA : ∀ p u c, (analyzeNode C p u c).1 = none) :
    ∀ n st, stackW C st.stack < n →
      ∃ out, crawlFuel C n st = some out ∧ out.err = none ∧
        out.final.stack = [] := by
  intro n
  induction n with
  | zero => intro st h; omega
  | succ n ih =>
    intro st hlt
    cases hstack : st.stack with
    | nil =>
      exact ⟨⟨st, none⟩, by simp [crawlFuel, hstack], rfl, hstack⟩
    | cons f rest =>
      rw [hstack, stackW_cons] at hlt
      have hfw : 1 ≤ frameW C f := fBound_pos C _ f.url
      have hrest : stackW C rest < n := by
        have h1 : frameW C f + stackW C rest ≤ n := Nat.lt_succ_iff.mp hlt
        have h2 : stackW C rest < frameW C f + stackW C rest :=
          Nat.lt_add_of_pos_left hfw
        exact Nat.lt_of_lt_of_le h2 h1
      by_cases hg : f.url ∉ st.visited ∧ f.depth ≤ C.maxDepth
      · obtain ⟨hv, hd⟩ := hg
        cases hfetch : C.fetch f.url with
        | none =>
          have hsf := stepFrame_fail C f rest st hv hd hfetch
          have hm : stackW C (stepFrame C f rest st).1.stack < n := by
            rw [hsf]; exact hrest
          obtain ⟨out, hout, herr, hstk⟩ := ih (stepFrame C f rest st).1 hm
          rw [hsf] at hout
          refine ⟨out, ?_, herr, hstk⟩
          simp only [crawlFuel, hstack, hsf]
          exact hout
        | some content =>
          cases han : (analyzeNode C f.parent f.url content).1 with
          | some e => exact absurd (hA f.parent f.url content) (by simp [han])
          | none =>
            have hsf := stepFrame_ok C f rest st content hv hd hfetch han
            have hkw := kids_weight_lt C f content hd hfetch
            have h1 : frameW C f + stackW C rest ≤ n := Nat.lt_succ_iff.mp hlt
            have hm : stackW C (stepFrame C f rest st).1.stack < n := by
              rw [hsf]
              show stackW C
                ((if (match f.parent with
                      | some p => if p ≠ "" then inScope C.anchor p else true
                      | none => true) then
                    (C.extract content f.url).map
                      (fun l => Frame.mk l (some f.url) (f.depth + 1))
                   else []).reverse ++ rest) < n
              rw [stackW_append, stackW_reverse]
              by_cases hgate : (match f.parent with
                  | some p => if p ≠ "" then inScope C.anchor p else true
                  | none => true) = true
              · rw [if_pos hgate]
                exact Nat.lt_of_lt_of_le
                  (Nat.add_lt_add_right hkw (stackW C rest)) h1
              · rw [if_neg hgate]
                have hz : stackW C ([] : List Frame) = 0 := rfl
                rw [hz, Nat.zero_add]
                exact hrest
            obtain ⟨out, hout, herr, hstk⟩ := ih (stepFrame C f rest st).1 hm
            rw [hsf] at hout
            refine ⟨out, ?_, herr, hstk⟩
            simp only [crawlFuel, hstack, hsf]
            exact hout
      · have hsf := stepFrame_skip C f rest st hg
        have hm : stackW C (stepFrame C f rest st).1.stack < n := by
          rw [hsf]; exact hrest
        obtain ⟨out, hout, herr, hstk⟩ := ih (stepFrame C f rest st).1 hm
        rw [hsf] at hout
        refine ⟨out, ?_, herr, hstk⟩
        simp only [crawlFuel, hstack, hsf]
        exact hout

/-- C9.  For every input — any finite seed stack, any fetch oracle (each
fetch succeeding or failing arbitrarily), any finite extraction — the
engine's loop terminates, and (when no analyzer raises) it ends exactly
when no pending frames remain: enough fuel reaches the empty stack with no
error.  The loop can only return at an empty stack or on an analyzer
exception by construction of `crawlFuel`. -/
theorem c9_termination (C : Crawler)
    (hA : ∀ p u c, (analyzeNode C p u c).1 = none) (st : St) :
    ∃ n out, crawlFuel C n st = some out ∧ out.err = none ∧
      out.final.stack = [] := by
  obtain ⟨out, hout, herr, hstk⟩ :=
    crawl_fuel_sufficient C hA (stackW C st.stack + 1) st (by omega)
  exact ⟨stackW C st.stack + 1, out, hout, herr, hstk⟩

/-- Witness for C9 on a concrete failing-fetch run. -/
theorem c9_witness :
    ∃ n out, crawlFuel failCrawler n
        (initSt [⟨"a", none, 0⟩, ⟨"b", none, 0⟩] [] []) = some out ∧
      out.err = none ∧ out.final.stack = [] :=
  c9_termination failCrawler (fun _ _ _ => rfl)
    (initSt [⟨"a", none, 0⟩, ⟨"b", none, 0⟩] [] [])

/-! ## Claim C10: the graph is forest-shaped below the root -/

/-- Appending a seed under the root key preserves the structural
invariant, provided the seed is a sane address. -/
theorem stInv_seed (s : String) (st : St) (hs : goodAddr s) (h : stInv st) :
    stInv { st with
      graph := addEdge st.graph "root" s
      stack := [⟨s, none, 0⟩] } := by
  unfold stInv at h ⊢
  obtain ⟨hnd, hvg, _, hkeys, hch, hroot, hocc⟩ := h
  refine ⟨hnd, hvg, ?_, ?_, ?_, ?_, ?_⟩
  · intro fr hfr
    simp only [List.mem_singleton] at hfr
    rw [hfr]
    exact ⟨hs, fun p hp => Option.noConfusion hp⟩
  · intro k cs hk
    rcases addEdge_entry_cases st.graph "root" s k cs hk with hold | ⟨hkp, _⟩
    · exact hkeys k cs hold
    · exact Or.inl hkp
  · intro k cs hk hkr c0 hc0
    rcases addEdge_entry_cases st.graph "root" s k cs hk with hold | ⟨hkp, _⟩
    · exact hch k cs hold hkr c0 hc0
    · exact absurd hkp hkr
  · intro cs hk c0 hc0
    rcases addEdge_entry_cases st.graph "root" s "root" cs hk
      with hold | ⟨_, hcs⟩
    · exact hroot cs hold c0 hc0
    · rcases hcs with hcs | ⟨cs0, hin0, hcs0⟩
      · subst hcs
        simp only [List.mem_singleton] at hc0
        rw [hc0]
        exact hs
      · subst hcs0
        rcases List.mem_append.mp hc0 with h0 | h0
        · exact hroot cs0 hin0 c0 h0
        · simp only [List.mem_singleton] at h0
          rw [h0]
          exact hs
  · intro q hq
    rw [occ_addEdge st.graph "root" s q, if_pos rfl]
    simpa using hocc q hq

/-- The driver's initial state satisfies the structural invariant. -/
theorem stInv_mainInit : stInv mainInit := by
  unfold stInv mainInit initSt
  refine ⟨by simp, by simp, by simp, ?_, ?_, ?_, ?_⟩
  · intro k cs hk
    simp only [List.mem_singleton, Prod.mk.injEq] at hk
    exact Or.inl hk.1
  · intro k cs hk hkr c0 hc0
    simp only [List.mem_singleton, Prod.mk.injEq] at hk
    exact absurd hk.1 hkr
  · intro cs hk c0 hc0
    simp only [List.mem_singleton, Prod.mk.injEq] at hk
    rw [hk.2] at hc0
    cases hc0
  · intro q hq
    refine ⟨by simp [occ, occInList], fun h => ?_⟩
    simp [occ, occInList] at h

/-- Sequencing the per-child printing never fails when each child subtree
prints. -/
theorem printFold_isSome (g : Graph) (n level : Nat) (cs : List String)
    (h : ∀ c ∈ cs, (printTreeF g n c (level + 1)).isSome) :
    (cs.foldr
      (fun c acc =>
        match printTreeF g n c (level + 1), acc with
        | some sub, some restLines =>
            some ((String.join (List.replicate level "  ") ++ "|-- " ++ c)
              :: (sub ++ restLines))
        | _, _ => none)
      (some [])).isSome := by
  induction cs with
  | nil => simp
  | cons c cs ih =>
    have hc := h c (List.mem_cons_self c cs)
    obtain ⟨sub, hsub⟩ := Option.isSome_iff_exists.mp hc
    have hacc := ih (fun d hd => h d (List.mem_cons_of_mem c hd))
    obtain ⟨restL, hrest⟩ := Option.isSome_iff_exists.mp hacc
    simp only [List.foldr_cons, hsub, hrest]
    rfl

/-- Any visited node prints within fuel exceeding the number of
strictly-later-visited addresses: recorded children always have strictly
larger insertion rank, so the recursion descends along increasing ranks and
bottoms out. -/
theorem printTree_succeeds (g : Graph) (v : List String)
    (hvg : ∀ x ∈ v, goodAddr x)
    (hkeys : ∀ k cs, (k, cs) ∈ g → k = "root" ∨ k ∈ v)
    (hch : ∀ k cs, (k, cs) ∈ g → k ≠ "root" → ∀ c ∈ cs,
      ∃ x, x ∈ v ∧ (c = x ∨ c = x ++ brokenTag) ∧ rankIn v k < rankIn v x) :
    ∀ n node level, node ∈ v → v.length + 1 - rankIn v node ≤ n →
      (printTreeF g n node level).isSome := by
  intro n
  induction n using Nat.strong_induction_on with
  | _ n ih =>
    intro node level hmem hn
    have hrk := rankIn_lt_length v node hmem
    have hlen : 0 < v.length := List.length_pos_of_mem hmem
    have hn2 : 2 ≤ n := by omega
    obtain ⟨m, rfl⟩ : ∃ m, n = m + 1 := ⟨n - 1, by omega⟩
    have hm1 : 1 ≤ m := by omega
    cases hgc : graphChildren g node with
    | none => simp [printTreeF, hgc]
    | some cs =>
      have hin : (node, cs) ∈ g := graphChildren_mem g node cs hgc
      have hnr : node ≠ "root" := (hvg node hmem).1
      have hkids : ∀ c ∈ cs, (printTreeF g m c (level + 1)).isSome := by
        intro c hc
        obtain ⟨x, hxv, hcx, hrank⟩ := hch node cs hin hnr c hc
        have hxr := rankIn_lt_length v x hxv
        rcases hcx with hcx | hcx
        · rw [hcx]
          exact ih m (by omega) x (level + 1) hxv (by omega)
        · rw [hcx]
          cases hgc2 : graphChildren g (x ++ brokenTag) with
          | none =>
            obtain ⟨m2, rfl⟩ : ∃ m2, m = m2 + 1 := ⟨m - 1, by omega⟩
            simp [printTreeF, hgc2]
          | some cs2 =>
            exfalso
            have hk := hkeys _ _ (graphChildren_mem g _ _ hgc2)
            rcases hk with hk | hk
            · exact tagged_ne_root x hk
            · exact tagged_not_goodAddr x (hvg _ hk)
      simp only [printTreeF, hgc]
      exact printFold_isSome g m level cs hkids

/-- The whole tree below the root key prints with fuel `|visited| + 2`. -/
theorem printTree_root (g : Graph) (v : List String)
    (hvg : ∀ x ∈ v, goodAddr x)
    (hkeys : ∀ k cs, (k, cs) ∈ g → k = "root" ∨ k ∈ v)
    (hch : ∀ k cs, (k, cs) ∈ g → k ≠ "root" → ∀ c ∈ cs,
      ∃ x, x ∈ v ∧ (c = x ∨ c = x ++ brokenTag) ∧ rankIn v k < rankIn v x)
    (hroot : ∀ cs, ("root", cs) ∈ g → ∀ c ∈ cs, goodAddr c) :
    (printTreeF g (v.length + 2) "root" 0).isSome := by
  show (printTreeF g (v.length + 1 + 1) "root" 0).isSome
  cases hgc : graphChildren g "root" with
  | none => simp [printTreeF, hgc]
  | some cs =>
    have hin := graphChildren_mem g "root" cs hgc
    have hkids : ∀ c ∈ cs, (printTreeF g (v.length + 1) c (0 + 1)).isSome := by
      intro c hc
      have hcg := hroot cs hin c hc
      cases hgc2 : graphChildren g c with
      | none => simp [printTreeF, hgc2]
      | some cs2 =>
        have hk := hkeys _ _ (graphChildren_mem g _ _ hgc2)
        rcases hk with hk | hk
        · exact absurd hk hcg.1
        · refine printTree_succeeds g v hvg hkeys hch (v.length + 1) c
            (0 + 1) hk ?_
          have := rankIn_lt_length v c hk
          omega
    simp only [printTreeF, hgc]
    exact printFold_isSome g (v.length + 1) 0 cs hkids

/-- C10 counterexample.  The claimed forest shape fails when an address
collides with the synthetic root key: running the driver with the single
seed `root` (a legal command line, `-u root`) appends `root` as its own
child at initialization, and its fetch fails, leaving the final graph with
the self-loop `root -> root`, a cycle reachable from the root key on which
the recursive printer does not terminate. -/
theorem c10_counterexample :
    mainFuel failCrawler 5 ["root"] mainInit =
      some ⟨⟨[], ["root"], [("root", ["root"])], ["root"],
        [⟨"root", none, 0⟩], [], []⟩, none⟩ ∧
    graphChildren [("root", ["root"])] "root" = some ["root"] :=
  ⟨rfl, rfl⟩

/-- C10 amended.  Provided no seed and no extracted link is the literal
root marker `root` or carries the `-BROKEN` suffix (true of any real URL),
the finished graph is forest-shaped below the root: (i) every sane address
is recorded as a child of non-root parents at most once; (ii) every child
entry of a non-root parent stands for an address visited strictly after
that parent (so following edges strictly increases insertion rank and no
cycle is reachable from the root key); (iii) the recursive tree printer
terminates on the finished graph. -/
theorem c10_graph_forest (C : Crawler) (seeds : List String) (n : Nat)
    (out : Outcome)
    (hseeds : ∀ s ∈ seeds, goodAddr s)
    (hex : ∀ content base l, l ∈ C.extract content base → goodAddr l)
    (hrun : mainFuel C n seeds mainInit = some out) :
    (∀ u, goodAddr u → occ out.final.graph u ≤ 1) ∧
    (∀ k cs, (k, cs) ∈ out.final.graph → k ≠ "root" → ∀ c ∈ cs,
      ∃ x, x ∈ out.final.visited ∧ (c = x ∨ c = x ++ brokenTag) ∧
        rankIn out.final.visited k < rankIn out.final.visited x) ∧
    (∃ m lines, printTreeF out.final.graph m "root" 0 = some lines) := by
  have hInv : stInv out.final :=
    main_run_preserve C stInv (stInv_step C hex) seeds
      (fun s hs st hP => stInv_seed s st (hseeds s hs) hP) n mainInit out
      hrun stInv_mainInit
  unfold stInv at hInv
  obtain ⟨hnd, hvg, hstk, hkeys, hch, hroot, hocc⟩ := hInv
  refine ⟨fun u hu => (hocc u hu).1, hch, ?_⟩
  have hp := printTree_root out.final.graph out.final.visited hvg hkeys hch hroot
  obtain ⟨lines, hlines⟩ := Option.isSome_iff_exists.mp hp
  exact ⟨out.final.visited.length + 2, lines, hlines⟩

/-- Witness for the amended C10 on a one-seed run with a failing fetch. -/
theorem c10_witness :
    (∀ u, goodAddr u →
      occ [("root", ["http://a"])] u ≤ 1) ∧
    (∀ k cs, (k, cs) ∈ [("root", ["http://a"])] → k ≠ "root" → ∀ c ∈ cs,
      ∃ x, x ∈ ["http://a"] ∧ (c = x ∨ c = x ++ brokenTag) ∧
        rankIn ["http://a"] k < rankIn ["http://a"] x) ∧
    (∃ m lines, printTreeF [("root", ["http://a"])] m "root" 0 = some lines) :=
  c10_graph_forest failCrawler ["http://a"] 3
    ⟨⟨[], ["http://a"], [("root", ["http://a"])], ["http://a"],
      [⟨"http://a", none, 0⟩], [], []⟩, none⟩
    (by
      intro s hs
      simp only [List.mem_singleton] at hs
      rw [hs]
      unfold goodAddr
      exact ⟨by decide, by decide⟩)
    (by intro content base l hl; simp [failCrawler] at hl)
    (by rfl)

end WebPage
